import Mathlib

/-!
Verification development for the sf-ext-plus extension's permission-editor and
permission-set logic. Pure fragments of the TypeScript source are embedded as
Lean definitions; stateful fragments (CLI calls, file writes, cache updates)
are embedded as explicit functions over their observable inputs and outputs.
-/

set_option maxRecDepth 4000

/-! ## Permission flag normalization (src/commands/permissioneditor/permissionFlags.ts) -/

/-- Object permission flags, mirroring the `ObjectPermissionFlags` record. -/
structure ObjectPermissionFlags where
  allowCreate : Bool
  allowDelete : Bool
  allowEdit : Bool
  allowRead : Bool
  viewAllRecords : Bool
  modifyAllRecords : Bool
deriving DecidableEq, Repr

/-- Field permission flags, mirroring the `FieldPermissionFlags` record. -/
structure FieldPermissionFlags where
  readable : Bool
  editable : Bool
deriving DecidableEq, Repr

/-- Embedding of `normalizeObjectPermissionFlags`: copies the input and then runs the
three conditional assignments in source order (modifyAllRecords, viewAllRecords,
allowEdit), each only ever setting flags to true. -/
def normalizeObjectPermissionFlags (flags : ObjectPermissionFlags) : ObjectPermissionFlags :=
  let out := flags
  let out := if out.modifyAllRecords then { out with allowRead := true, allowEdit := true } else out
  let out := if out.viewAllRecords then { out with allowRead := true } else out
  let out := if out.allowEdit then { out with allowRead := true } else out
  out

/-- Embedding of `normalizeFieldPermissionFlags`: editable forces readable. -/
def normalizeFieldPermissionFlags (flags : FieldPermissionFlags) : FieldPermissionFlags :=
  let out := flags
  let out := if out.editable then { out with readable := true } else out
  out

/-! ## Developer-name derivation (src/commands/permsets/developerName.ts) -/

/-- Replacement pass for the regex `[^a-zA-Z0-9] -> _` over the label's characters.
`Char.isAlphanum` is exactly the ASCII class `[a-zA-Z0-9]`. -/
def replaceNonAlnum (l : List Char) : List Char :=
  l.map (fun c => if c.isAlphanum then c else '_')

/-- Collapsing pass for the regex `_+ -> _`: drops an underscore that is immediately
followed by another underscore, which collapses each maximal run to one. -/
def collapseUnderscores : List Char → List Char
  | [] => []
  | [c] => [c]
  | a :: b :: rest =>
    if a = '_' && b = '_' then collapseUnderscores (b :: rest)
    else a :: collapseUnderscores (b :: rest)

/-- Embedding of `labelToDeveloperName`. The TypeScript guard for `undefined`/`null`
input is modelled by an `Option String` argument; `none` is the null/undefined case. -/
def labelToDeveloperName (label : Option String) : String :=
  match label with
  | none => ""
  | some s =>
    let name := collapseUnderscores (replaceNonAlnum s.toList)
    let name :=
      match name with
      | [] => name
      | c :: _ => if c.isDigit then 'x' :: name else name
    String.mk name

/-- Boolean check that a character list has no two consecutive underscores. -/
def noTwoUnderscores : List Char → Bool
  | a :: b :: rest => !(a = '_' && b = '_') && noTwoUnderscores (b :: rest)
  | _ => true

/-- Boolean check that a string starts with an ASCII digit (models `/^\d/.test`). -/
def startsWithDigit (s : String) : Bool :=
  match s.toList with
  | c :: _ => c.isDigit
  | [] => false

/-! ## Path parsing (src/commands/permissioneditor/path.ts)

The source calls Node's `path.normalize`, `path.basename` and `String.split(path.sep)`.
These are embedded below for the POSIX separator over character lists. -/

/-- Splitting on the path separator, with JavaScript `split` semantics:
empty segments are kept and the empty input yields one empty segment. -/
def splitOnSep : List Char → List (List Char)
  | [] => [[]]
  | c :: rest =>
    if c = '/' then [] :: splitOnSep rest
    else
      match splitOnSep rest with
      | [] => [[c]]
      | g :: gs => (c :: g) :: gs

/-- Joining components with the path separator (inverse of `splitOnSep`). -/
def joinSep : List (List Char) → List Char
  | [] => []
  | [c] => c
  | c :: cs => c ++ '/' :: joinSep cs

/-- Segment resolution of Node's `path.normalize`: drops empty and `.` segments and
resolves `..` against the accumulator, keeping leading `..` only for relative paths. -/
def resolveDots (allowAboveRoot : Bool) (acc comps : List (List Char)) : List (List Char) :=
  match comps with
  | [] => acc.reverse
  | c :: cs =>
    if c = [] || c = ['.'] then resolveDots allowAboveRoot acc cs
    else if c = ['.', '.'] then
      match acc with
      | top :: rest =>
        if top = ['.', '.'] then
          if allowAboveRoot then resolveDots allowAboveRoot (c :: acc) cs
          else resolveDots allowAboveRoot acc cs
        else resolveDots allowAboveRoot rest cs
      | [] =>
        if allowAboveRoot then resolveDots allowAboveRoot [c] cs
        else resolveDots allowAboveRoot [] cs
    else resolveDots allowAboveRoot (c :: acc) cs

/-- Embedding of POSIX `path.normalize`: resolves `.`/`..`, collapses repeated
separators, and preserves a leading slash and a trailing slash. -/
def pathNormalize (p : List Char) : List Char :=
  if p = [] then ['.']
  else
    let isAbs := p.head? = some '/'
    let trailing := p.getLast? = some '/'
    let comps := resolveDots (!isAbs) [] (splitOnSep p)
    let body := joinSep comps
    if body = [] then
      if isAbs then ['/'] else if trailing then ['.', '/'] else ['.']
    else
      let body := if trailing then body ++ ['/'] else body
      if isAbs then '/' :: body else body

/-- Embedding of POSIX `path.basename` without an extension argument: trailing
separators are ignored and the last component is returned. -/
def pathBasenameCore (p : List Char) : List Char :=
  let q := (p.reverse.dropWhile (· = '/')).reverse
  ((splitOnSep q).getLast?).getD []

/-- Embedding of POSIX `path.basename` with an extension argument: the extension is
stripped when it is a proper suffix of the basename. -/
def pathBasenameExt (p ext : List Char) : List Char :=
  let base := pathBasenameCore p
  if base ≠ ext ∧ ext.isSuffixOf base then base.take (base.length - ext.length) else base

/-- Embedding of `Array.prototype.findIndex`, with the `-1` sentinel mapped to `none`. -/
def findIndexOpt (p : α → Bool) : List α → Option Nat
  | [] => none
  | a :: as => if p a then some 0 else (findIndexOpt p as).map (· + 1)

/-- Result type of `parseObjectFieldFromPath`, mirroring `FocusedMetadata`. -/
inductive FocusedMetadata where
  | object (objectApiName : String)
  | field (objectApiName fieldApiName fieldFullName : String)
deriving DecidableEq, Repr

/-- Embedding of `parseObjectFieldFromPath`: normalize the path; a
`.object-meta.xml` suffix yields an object result from the basename; a
`.field-meta.xml` suffix yields a field result when `objects` and `fields`
segments are present with successors; everything else yields `none`. -/
def parseObjectFieldFromPath (filePath : String) : Option FocusedMetadata :=
  let normalized := pathNormalize filePath.toList
  if (".object-meta.xml".toList).isSuffixOf normalized then
    some (FocusedMetadata.object (String.mk (pathBasenameExt normalized ".object-meta.xml".toList)))
  else if (".field-meta.xml".toList).isSuffixOf normalized then
    let pathParts := splitOnSep normalized
    match findIndexOpt (· = "objects".toList) pathParts,
          findIndexOpt (· = "fields".toList) pathParts with
    | some objectsIndex, some fieldsIndex =>
      if objectsIndex + 1 < pathParts.length ∧ fieldsIndex + 1 < pathParts.length then
        let objectApiName := (pathParts.get? (objectsIndex + 1)).getD []
        let fieldApiName := pathBasenameExt normalized ".field-meta.xml".toList
        some (FocusedMetadata.field (String.mk objectApiName) (String.mk fieldApiName)
          (String.mk (objectApiName ++ '.' :: fieldApiName)))
      else none
    | _, _ => none
  else none

/-! ## Metadata XML upsert (permissionMetadataXml, src/unnamed/part_004)

The file-level functions read, parse, edit and re-serialize a whole document.
They are embedded at the parsed-document level: a document is the metadata root
(`PermissionSet` or `Profile`), holding the two repeatable permission lists plus
an opaque remainder `rest` standing for every other child of the root. Parsing
with the source's `isArray` option always yields arrays for the two lists, so a
list value is either absent or an array, modelled by `Option (List _)`. -/

/-- Parsed `objectPermissions` XML entry (`ObjPermEntry` in the source); every
child element may be absent in an arbitrary document. -/
structure ObjPermEntry where
  allowCreate : Option Bool
  allowDelete : Option Bool
  allowEdit : Option Bool
  allowRead : Option Bool
  viewAllRecords : Option Bool
  modifyAllRecords : Option Bool
  object : Option String
deriving DecidableEq, Repr

/-- Parsed `fieldPermissions` XML entry (`FieldPermEntry` in the source). -/
structure FieldPermEntry where
  editable : Option Bool
  readable : Option Bool
  field : Option String
deriving DecidableEq, Repr

/-- Parsed metadata root: the two permission lists and the rest of the document,
kept opaque since the source never touches it. -/
structure MetadataRoot (ρ : Type) where
  objectPermissions : Option (List ObjPermEntry)
  fieldPermissions : Option (List FieldPermEntry)
  rest : ρ
deriving DecidableEq, Repr

/-- Embedding of `normalizeToArray` under the parser's `isArray` option:
an absent value becomes the empty list. -/
def normalizeToArray (value : Option (List α)) : List α :=
  value.getD []

/-- Field assignments performed on a found or freshly pushed entry in
`ensureObjectPermissionsInRoot`: the six flags are overwritten, everything
else in the entry is kept. -/
def setObjPermEntryFlags (e : ObjPermEntry) (flags : ObjectPermissionFlags) : ObjPermEntry :=
  { e with
    allowCreate := some flags.allowCreate,
    allowDelete := some flags.allowDelete,
    allowEdit := some flags.allowEdit,
    allowRead := some flags.allowRead,
    viewAllRecords := some flags.viewAllRecords,
    modifyAllRecords := some flags.modifyAllRecords }

/-- Fresh entry pushed by `ensureObjectPermissionsInRoot` when no entry matches:
only the `object` key is present before the flag assignments. -/
def newObjPermEntry (objectApiName : String) : ObjPermEntry :=
  { allowCreate := none, allowDelete := none, allowEdit := none, allowRead := none,
    viewAllRecords := none, modifyAllRecords := none, object := some objectApiName }

/-- List-level body of `ensureObjectPermissionsInRoot`: `list.find` locates the
first entry whose `object` equals the API name and its flags are assigned in
place; when none matches a new entry is pushed at the end. -/
def upsertObjectPermission (objectApiName : String) (flags : ObjectPermissionFlags) :
    List ObjPermEntry → List ObjPermEntry
  | [] => [setObjPermEntryFlags (newObjPermEntry objectApiName) flags]
  | e :: es =>
    if e.object = some objectApiName then setObjPermEntryFlags e flags :: es
    else e :: upsertObjectPermission objectApiName flags es

/-- Flag assignments on a found or freshly pushed `fieldPermissions` entry. -/
def setFieldPermEntryFlags (e : FieldPermEntry) (flags : FieldPermissionFlags) : FieldPermEntry :=
  { e with editable := some flags.editable, readable := some flags.readable }

/-- Fresh `fieldPermissions` entry pushed when no entry matches the field key. -/
def newFieldPermEntry (fieldFullName : String) : FieldPermEntry :=
  { editable := none, readable := none, field := some fieldFullName }

/-- List-level body of `ensureFieldPermissionsInRoot`. -/
def upsertFieldPermission (fieldFullName : String) (flags : FieldPermissionFlags) :
    List FieldPermEntry → List FieldPermEntry
  | [] => [setFieldPermEntryFlags (newFieldPermEntry fieldFullName) flags]
  | e :: es =>
    if e.field = some fieldFullName then setFieldPermEntryFlags e flags :: es
    else e :: upsertFieldPermission fieldFullName flags es

/-- Embedding of `ensureObjectPermissionsInRoot`. -/
def ensureObjectPermissionsInRoot (root : MetadataRoot ρ) (objectApiName : String)
    (flags : ObjectPermissionFlags) : MetadataRoot ρ :=
  { root with objectPermissions := some (upsertObjectPermission objectApiName flags (normalizeToArray root.objectPermissions)) }

/-- Embedding of `ensureFieldPermissionsInRoot`. -/
def ensureFieldPermissionsInRoot (root : MetadataRoot ρ) (fieldFullName : String)
    (flags : FieldPermissionFlags) : MetadataRoot ρ :=
  { root with fieldPermissions := some (upsertFieldPermission fieldFullName flags (normalizeToArray root.fieldPermissions)) }

/-- Embedding of `applyObjectPermissionsToFile` at the parsed-document level:
normalize the flags, then upsert the entry in the root. Reading, parsing,
serialization and the whole-file write are the identity on this model. -/
def applyObjectPermissionsToFile (root : MetadataRoot ρ) (objectApiName : String)
    (flags : ObjectPermissionFlags) : MetadataRoot ρ :=
  let normalized := normalizeObjectPermissionFlags flags
  ensureObjectPermissionsInRoot root objectApiName normalized

/-- Embedding of `applyFieldPermissionsToFile` at the parsed-document level:
normalize both flag sets, ensure the object entry, then ensure the field entry. -/
def applyFieldPermissionsToFile (root : MetadataRoot ρ) (objectApiName fieldFullName : String)
    (objectFlags : ObjectPermissionFlags) (fieldFlags : FieldPermissionFlags) : MetadataRoot ρ :=
  let normalizedObject := normalizeObjectPermissionFlags objectFlags
  let normalizedField := normalizeFieldPermissionFlags fieldFlags
  let root := ensureObjectPermissionsInRoot root objectApiName normalizedObject
  ensureFieldPermissionsInRoot root fieldFullName normalizedField

/-! ## SOQL records and mappers (src/commands/permissioneditor/soqlMappers.ts) -/

/-- Raw `ObjectPermissions` query row; the permission fields may be absent. -/
structure ObjectPermissionsRecord where
  ParentId : Option String
  SobjectType : Option String
  PermissionsCreate : Option Bool
  PermissionsRead : Option Bool
  PermissionsEdit : Option Bool
  PermissionsDelete : Option Bool
  PermissionsViewAllRecords : Option Bool
  PermissionsModifyAllRecords : Option Bool
deriving DecidableEq, Repr

/-- Raw `FieldPermissions` query row. -/
structure FieldPermissionsRecord where
  ParentId : Option String
  Field : Option String
  SobjectType : Option String
  PermissionsRead : Option Bool
  PermissionsEdit : Option Bool
deriving DecidableEq, Repr

/-- Embedding of `objectPermissionsRecordToFlags`: each flag is the strict
`=== true` comparison of the corresponding record field. -/
def objectPermissionsRecordToFlags (record : ObjectPermissionsRecord) : ObjectPermissionFlags :=
  { allowCreate := record.PermissionsCreate = some true,
    allowDelete := record.PermissionsDelete = some true,
    allowEdit := record.PermissionsEdit = some true,
    allowRead := record.PermissionsRead = some true,
    viewAllRecords := record.PermissionsViewAllRecords = some true,
    modifyAllRecords := record.PermissionsModifyAllRecords = some true }

/-- Embedding of `fieldPermissionsRecordToFlags`. -/
def fieldPermissionsRecordToFlags (record : FieldPermissionsRecord) : FieldPermissionFlags :=
  { readable := record.PermissionsRead = some true,
    editable := record.PermissionsEdit = some true }

/-- Object flag computation of `runToggleObjectFieldPermissions` for a field toggle
(toggle command, src/unnamed/part_001): flags come from the first existing record,
or default to read-only access; when no record exists (`needsObjectAccess`),
`allowRead` is injected as true. -/
def computeObjectFlagsForFieldToggle (existingObjectRecords : List ObjectPermissionsRecord) :
    ObjectPermissionFlags :=
  let objectFlags :=
    match existingObjectRecords with
    | r :: _ => objectPermissionsRecordToFlags r
    | [] =>
      { allowCreate := false, allowDelete := false, allowEdit := false, allowRead := true,
        viewAllRecords := false, modifyAllRecords := false }
  let needsObjectAccess := existingObjectRecords.length = 0
  if needsObjectAccess then { objectFlags with allowRead := true } else objectFlags

/-! ## CLI result envelopes (refresh.ts and soql.ts)

The callback logic of the CLI wrappers is embedded as a pure function of the
observable call outcome: the optional process error message, the captured
standard error text, and the JSON parse outcome of standard output (`none`
models unparsable output, for which the source falls back to an empty object). -/

/-- Whitespace trim of JavaScript's `trim`, over the character list. -/
def jsTrim (s : String) : String :=
  String.mk (((s.toList.dropWhile Char.isWhitespace).reverse.dropWhile Char.isWhitespace).reverse)

/-- Body of the `result` field of a CLI query envelope. -/
structure SfResultBody (R : Type) where
  records : Option (List R)
deriving DecidableEq, Repr

/-- Parsed CLI JSON envelope (`SfQueryPayload` in refresh.ts, `SfDataQueryResult`
in soql.ts, plus the `name` field that refresh.ts reads). -/
structure SfQueryPayload (R : Type) where
  status : Option Int
  result : Option (SfResultBody R)
  message : Option String
  name : Option String
deriving DecidableEq, Repr

/-- Envelope with every field absent: the parse of the `'{}'` fallback. -/
def emptyPayload : SfQueryPayload R :=
  { status := none, result := none, message := none, name := none }

/-- Embedding of the callback of `runSfDataQuery` (refresh.ts): on a process error
reject with the nullish chain message ?? name ?? trimmed stderr ?? error message;
on a present nonzero status reject with message ?? a fixed text; otherwise resolve
with the parsed envelope. -/
def runSfDataQuery (procErr : Option String) (stderr : Option String)
    (parsedOut : Option (SfQueryPayload R)) : Except String (SfQueryPayload R) :=
  let parsed := parsedOut.getD emptyPayload
  match procErr with
  | some errMessage =>
    .error (((parsed.message.orElse fun _ => parsed.name).orElse fun _ => stderr.map jsTrim).getD errMessage)
  | none =>
    match parsed.status with
    | some s => if s ≠ 0 then .error (parsed.message.getD "Query failed") else .ok parsed
    | none => .ok parsed

/-- Embedding of the callback of `runSfDataQueryWithContext` (soql.ts): as
`runSfDataQuery` but the process-error fallback chain has no `name` step. -/
def runSfDataQueryWithContext (procErr : Option String) (stderr : Option String)
    (parsedOut : Option (SfQueryPayload R)) : Except String (SfQueryPayload R) :=
  let parsed := parsedOut.getD emptyPayload
  match procErr with
  | some errMessage =>
    .error ((parsed.message.orElse fun _ => stderr.map jsTrim).getD errMessage)
  | none =>
    match parsed.status with
    | some s => if s ≠ 0 then .error (parsed.message.getD "Query failed") else .ok parsed
    | none => .ok parsed

/-! ## Permission queries (src/commands/permissioneditor/soql.ts) -/

/-- Embedding of `queryObjectPermissions`: empty parent ids short-circuit to the
empty list before any CLI call; otherwise the CLI outcome's records are returned,
with every rejection caught and turned into the empty list. -/
def queryObjectPermissions (parentIds : List String) (procErr : Option String)
    (stderr : Option String) (parsedOut : Option (SfQueryPayload ObjectPermissionsRecord)) :
    List ObjectPermissionsRecord :=
  if parentIds.length = 0 then []
  else
    match runSfDataQueryWithContext procErr stderr parsedOut with
    | .error _ => []
    | .ok json => ((json.result.bind fun b => b.records).getD [])

/-- Embedding of `queryFieldPermissions`, same shape as `queryObjectPermissions`. -/
def queryFieldPermissions (parentIds : List String) (procErr : Option String)
    (stderr : Option String) (parsedOut : Option (SfQueryPayload FieldPermissionsRecord)) :
    List FieldPermissionsRecord :=
  if parentIds.length = 0 then []
  else
    match runSfDataQueryWithContext procErr stderr parsedOut with
    | .error _ => []
    | .ok json => ((json.result.bind fun b => b.records).getD [])

/-! ## Metadata refresh (src/commands/permissioneditor/refresh.ts) -/

/-- Row of the Profile query. -/
structure ProfileRecord where
  Id : String
  Name : String
deriving DecidableEq, Repr

/-- Row of the standalone PermissionSet query. -/
structure PermSetRecord where
  Id : String
  Name : String
  Label : Option String
  NamespacePrefix : Option String
  IsOwnedByProfile : Option Bool
deriving DecidableEq, Repr

/-- Row of the profile-owned PermissionSet query. -/
structure ProfilePermSetRecord where
  Id : String
  ProfileId : String
  Name : String
deriving DecidableEq, Repr

/-- Cached profile entry (`CachedProfile`). -/
structure CachedProfile where
  id : String
  name : String
deriving DecidableEq, Repr

/-- Cached permission set entry (`CachedPermissionSet`). -/
structure CachedPermissionSet where
  id : String
  name : String
  label : Option String
  namespacePrefix : Option String
  isOwnedByProfile : Option Bool
deriving DecidableEq, Repr

/-- The three globalState collections the refresh overwrites, as one record. -/
structure PermissionMetadataCache where
  profiles : List CachedProfile
  permissionSets : List CachedPermissionSet
  profilePermissionSetIds : List (String × String)
deriving DecidableEq, Repr

/-- Key assignment on a JavaScript object modelled as an insertion-ordered
association list: an existing key is overwritten in place, a new key is appended. -/
def assocSet (m : List (String × String)) (k v : String) : List (String × String) :=
  if m.any (fun p => p.1 = k) then m.map (fun p => if p.1 = k then (k, v) else p)
  else m ++ [(k, v)]

/-- The `profilePermissionSetIds` object built by the refresh loop: one assignment
per record in order, so a later record for the same profile wins. -/
def buildProfilePermissionSetIds (records : List ProfilePermSetRecord) :
    List (String × String) :=
  records.foldl (fun m r => assocSet m r.ProfileId r.Id) []

/-- Records of a resolved payload: `payload.result?.records ?? []`. -/
def payloadRecords (payload : SfQueryPayload R) : List R :=
  (payload.result.bind fun b => b.records).getD []

/-- Mapping of a profile row to its cached form. -/
def profileRecordToCached (r : ProfileRecord) : CachedProfile :=
  match r with
  | ⟨i, n⟩ => ⟨i, n⟩

/-- Mapping of a permission set row to its cached form. -/
def permSetRecordToCached (r : PermSetRecord) : CachedPermissionSet :=
  match r with
  | ⟨i, n, l, np, owned⟩ => ⟨i, n, l, np, owned⟩

/-- Embedding of `refreshPermissionMetadata` over the observable outcomes of its
steps: the workspace check, the default-org resolution, and the three queries run
under `Promise.all`. The extension globalState is passed in and returned
explicitly; the three `update` calls happen only after all queries succeed, and
any thrown step lands in the catch that returns `undefined` with the state
untouched. -/
def refreshPermissionMetadata (hasWorkspace : Bool)
    (orgOutcome : Except String String)
    (profilesOutcome : Except String (SfQueryPayload ProfileRecord))
    (permSetsOutcome : Except String (SfQueryPayload PermSetRecord))
    (profilePermSetOutcome : Except String (SfQueryPayload ProfilePermSetRecord))
    (cache : PermissionMetadataCache) :
    PermissionMetadataCache × Option PermissionMetadataCache :=
  if !hasWorkspace then (cache, none)
  else
    match orgOutcome with
    | .error _ => (cache, none)
    | .ok _ =>
      match profilesOutcome, permSetsOutcome, profilePermSetOutcome with
      | .ok profilesPayload, .ok permSetsPayload, .ok profilePermSetPayload =>
        let profiles := (payloadRecords profilesPayload).map profileRecordToCached
        let permissionSets := (payloadRecords permSetsPayload).map permSetRecordToCached
        let profilePermissionSetIds := buildProfilePermissionSetIds (payloadRecords profilePermSetPayload)
        (⟨profiles, permissionSets, profilePermissionSetIds⟩,
          some ⟨profiles, permissionSets, profilePermissionSetIds⟩)
      | _, _, _ => (cache, none)

/-! ## Deletion filename filter (src/commands/permsets/deleteMetadataFilter.ts) -/

/-- File handle carrying its filesystem path, mirroring the `fsPath` shape. -/
structure FileUri where
  fsPath : String
deriving DecidableEq, Repr

/-- ASCII lower-casing of a character list, modelling `toLowerCase` on the
ASCII file names involved. -/
def jsToLower (l : List Char) : List Char :=
  l.map Char.toLower

/-- Embedding of `getPermissionSetMetadataFileUrisToDelete`: keep exactly the uris
whose basename equals, case-insensitively, the expected metadata file name. -/
def getPermissionSetMetadataFileUrisToDelete (uris : List FileUri) (permSetName : String) :
    List FileUri :=
  let expectedLower := jsToLower (permSetName ++ ".permissionset-meta.xml").toList
  uris.filter (fun u => jsToLower (pathBasenameCore u.fsPath.toList) = expectedLower)

/-- Clean path component: nonempty, not a dot segment, and free of separators.
Such components pass through `pathNormalize` untouched. -/
def cleanComp (c : List Char) : Prop :=
  c ≠ [] ∧ c ≠ ['.'] ∧ c ≠ ['.', '.'] ∧ '/' ∉ c

instance (c : List Char) : Decidable (cleanComp c) := by
  unfold cleanComp
  infer_instance

/-! ## Helper lemmas -/

/-- Characters of the collapsed list all come from the input list. -/
theorem mem_collapseUnderscores {c : Char} : ∀ {l : List Char},
    c ∈ collapseUnderscores l → c ∈ l := by
  intro l
  induction l with
  | nil => simp [collapseUnderscores]
  | cons a t ih =>
    cases t with
    | nil => simp [collapseUnderscores]
    | cons b r =>
      intro h
      rw [collapseUnderscores] at h
      by_cases hab : a = '_' ∧ b = '_'
      · rw [if_pos (by simp [hab.1, hab.2])] at h
        exact List.mem_cons_of_mem a (ih h)
      · rw [if_neg (by simpa using hab)] at h
        rcases List.mem_cons.mp h with h1 | h2
        · exact h1 ▸ List.mem_cons_self a _
        · exact List.mem_cons_of_mem a (ih h2)

/-- Collapsing keeps the head of a nonempty list. -/
theorem head_collapseUnderscores : ∀ (xs : List Char) (x : Char),
    (collapseUnderscores (x :: xs)).head? = some x := by
  intro xs
  induction xs with
  | nil => intro x; rfl
  | cons y ys ih =>
    intro x
    rw [collapseUnderscores]
    by_cases hxy : x = '_' ∧ y = '_'
    · rw [if_pos (by simp [hxy.1, hxy.2])]
      rw [ih y, hxy.1, hxy.2]
    · rw [if_neg (by simpa using hxy)]
      rfl

/-- Collapsing leaves no two consecutive underscores. -/
theorem noTwoUnderscores_collapseUnderscores : ∀ (xs : List Char) (x : Char),
    noTwoUnderscores (collapseUnderscores (x :: xs)) = true := by
  intro xs
  induction xs with
  | nil => intro x; rfl
  | cons y ys ih =>
    intro x
    rw [collapseUnderscores]
    by_cases hxy : x = '_' ∧ y = '_'
    · rw [if_pos (by simp [hxy.1, hxy.2])]
      exact ih y
    · rw [if_neg (by simpa using hxy)]
      have hhead := head_collapseUnderscores ys y
      have hrest := ih y
      cases hL : collapseUnderscores (y :: ys) with
      | nil => simp [hL] at hhead
      | cons z L =>
        rw [hL] at hhead hrest
        have hz : z = y := by simpa using hhead
        subst hz
        rw [noTwoUnderscores]
        simp only [hrest, Bool.and_true]
        by_cases hx : x = '_'
        · have hzz : ¬ z = '_' := fun hzu => hxy ⟨hx, hzu⟩
          simp [hzz]
        · simp [hx]

/-- Characters produced by the replacement pass are ASCII alphanumerics or underscore. -/
theorem valid_of_mem_replaceNonAlnum {c : Char} {l : List Char}
    (h : c ∈ replaceNonAlnum l) : (c.isAlphanum || c = '_') = true := by
  rcases List.mem_map.mp h with ⟨a, _, ha⟩
  by_cases hal : a.isAlphanum
  · rw [if_pos hal] at ha
    subst ha
    simp [hal]
  · rw [if_neg hal] at ha
    subst ha
    simp

/-- Unfolding of `labelToDeveloperName` on a present string, as a character list. -/
theorem labelToDeveloperName_toList (s : String) :
    (labelToDeveloperName (some s)).toList =
      (match collapseUnderscores (replaceNonAlnum s.toList) with
      | [] => ([] : List Char)
      | c :: rest => if c.isDigit then 'x' :: c :: rest else c :: rest) := by
  rw [labelToDeveloperName]
  cases h : collapseUnderscores (replaceNonAlnum s.toList) with
  | nil => simp [h]
  | cons c rest =>
    simp only [h]
    by_cases hd : c.isDigit
    · simp [hd]
    · simp [hd]

/-- Unfolding of `labelToDeveloperName` when the collapsed list is empty. -/
theorem labelToDeveloperName_toList_nil (s : String)
    (h : collapseUnderscores (replaceNonAlnum s.toList) = []) :
    (labelToDeveloperName (some s)).toList = [] := by
  rw [labelToDeveloperName_toList, h]

/-- Unfolding of `labelToDeveloperName` when the collapsed list is nonempty. -/
theorem labelToDeveloperName_toList_cons (s : String) (a : Char) (rest : List Char)
    (h : collapseUnderscores (replaceNonAlnum s.toList) = a :: rest) :
    (labelToDeveloperName (some s)).toList =
      if a.isDigit then 'x' :: a :: rest else a :: rest := by
  rw [labelToDeveloperName_toList, h]

/-! ## Claim C4: developer-name derivation output shape -/

/-- Claim C4: for every input, the output of `labelToDeveloperName` contains only
characters in `[A-Za-z0-9_]`, never starts with a digit, and never contains two
consecutive underscores; empty, null and undefined input yield the empty string;
and the cited examples hold: the accented label maps to `caf_` and the numeric
label maps to `x123`. -/
theorem labelToDeveloperName_output_shape (l : Option String) :
    ((labelToDeveloperName l).toList.all fun c => c.isAlphanum || c = '_') = true
    ∧ noTwoUnderscores (labelToDeveloperName l).toList = true
    ∧ startsWithDigit (labelToDeveloperName l) = false
    ∧ labelToDeveloperName none = ""
    ∧ labelToDeveloperName (some "") = ""
    ∧ labelToDeveloperName (some "café") = "caf_"
    ∧ labelToDeveloperName (some "123") = "x123" := by
  refine ⟨?_, ?_, ?_, rfl, by decide, by decide, by decide⟩
  · cases l with
    | none => decide
    | some s =>
      rw [List.all_eq_true]
      intro c hc
      have hmem : ∀ {c' : Char}, c' ∈ collapseUnderscores (replaceNonAlnum s.toList) →
          (c'.isAlphanum || c' = '_') = true := fun hc' =>
        valid_of_mem_replaceNonAlnum (mem_collapseUnderscores hc')
      cases hm : collapseUnderscores (replaceNonAlnum s.toList) with
      | nil => rw [labelToDeveloperName_toList_nil s hm] at hc; simp at hc
      | cons a rest =>
        rw [labelToDeveloperName_toList_cons s a rest hm] at hc
        by_cases hd : a.isDigit
        · rw [if_pos hd] at hc
          rcases List.mem_cons.mp hc with h1 | h2
          · subst h1; decide
          · exact hmem (hm ▸ h2)
        · rw [if_neg hd] at hc
          exact hmem (hm ▸ hc)
  · cases l with
    | none => decide
    | some s =>
      cases hm : collapseUnderscores (replaceNonAlnum s.toList) with
      | nil => rw [labelToDeveloperName_toList_nil s hm]; rfl
      | cons a rest =>
        rw [labelToDeveloperName_toList_cons s a rest hm]
        have hnt : noTwoUnderscores (a :: rest) = true := by
          cases hr : replaceNonAlnum s.toList with
          | nil => rw [hr] at hm; exact absurd hm (by simp [collapseUnderscores])
          | cons x xs => rw [hr] at hm; rw [← hm]; exact noTwoUnderscores_collapseUnderscores xs x
        by_cases hd : a.isDigit
        · rw [if_pos hd]
          rw [noTwoUnderscores]
          simp [hnt]
        · rw [if_neg hd]
          exact hnt
  · cases l with
    | none => decide
    | some s =>
      rw [startsWithDigit]
      cases hm : collapseUnderscores (replaceNonAlnum s.toList) with
      | nil => rw [labelToDeveloperName_toList_nil s hm]
      | cons a rest =>
        rw [labelToDeveloperName_toList_cons s a rest hm]
        by_cases hd : a.isDigit
        · rw [if_pos hd]; rfl
        · rw [if_neg hd]
          simpa using hd

/-! ## Claims C2 and C3: flag normalization rules and idempotence -/

/-- Claim C2: the normalized flags satisfy the implication rules —
modifyAllRecords forces allowRead and allowEdit, viewAllRecords forces
allowRead, allowEdit forces allowRead, and editable forces readable — and
every flag not forced true by a rule keeps its input value. Each output flag
is stated as the exact boolean function of the input, which is equivalent to
the rules plus preservation. -/
theorem normalizePermissionFlags_rules (f : ObjectPermissionFlags) (g : FieldPermissionFlags) :
    (normalizeObjectPermissionFlags f).allowRead
        = (f.allowRead || f.modifyAllRecords || f.viewAllRecords || f.allowEdit)
    ∧ (normalizeObjectPermissionFlags f).allowEdit = (f.allowEdit || f.modifyAllRecords)
    ∧ (normalizeObjectPermissionFlags f).allowCreate = f.allowCreate
    ∧ (normalizeObjectPermissionFlags f).allowDelete = f.allowDelete
    ∧ (normalizeObjectPermissionFlags f).viewAllRecords = f.viewAllRecords
    ∧ (normalizeObjectPermissionFlags f).modifyAllRecords = f.modifyAllRecords
    ∧ (normalizeFieldPermissionFlags g).readable = (g.readable || g.editable)
    ∧ (normalizeFieldPermissionFlags g).editable = g.editable := by
  obtain ⟨a, b, c, d, e, m⟩ := f
  obtain ⟨r, ed⟩ := g
  cases a <;> cases b <;> cases c <;> cases d <;> cases e <;> cases m <;> cases r <;> cases ed <;>
    decide

/-- Claim C3: both flag normalizations are idempotent. -/
theorem normalizePermissionFlags_idempotent (f : ObjectPermissionFlags) (g : FieldPermissionFlags) :
    normalizeObjectPermissionFlags (normalizeObjectPermissionFlags f)
        = normalizeObjectPermissionFlags f
    ∧ normalizeFieldPermissionFlags (normalizeFieldPermissionFlags g)
        = normalizeFieldPermissionFlags g := by
  obtain ⟨a, b, c, d, e, m⟩ := f
  obtain ⟨r, ed⟩ := g
  cases a <;> cases b <;> cases c <;> cases d <;> cases e <;> cases m <;> cases r <;> cases ed <;>
    decide

/-! ## Claim C9: deletion filename filter -/

/-- Claim C9: a uri is selected for deletion exactly when it is one of the input
uris and its basename equals, case-insensitively, the expected
`name.permissionset-meta.xml` file name; every other basename, including
near-matches, is excluded. -/
theorem getPermissionSetMetadataFileUrisToDelete_exact (uris : List FileUri)
    (permSetName : String) (u : FileUri) :
    u ∈ getPermissionSetMetadataFileUrisToDelete uris permSetName ↔
      u ∈ uris ∧ jsToLower (pathBasenameCore u.fsPath.toList)
        = jsToLower (permSetName ++ ".permissionset-meta.xml").toList := by
  simp [getPermissionSetMetadataFileUrisToDelete, List.mem_filter]

/-! ## Claim C10: permission queries resolve with a list on every outcome -/

/-- Claim C10: `queryObjectPermissions` and `queryFieldPermissions` never throw.
With no parent ids they return the empty list whatever the CLI outcome would be;
a process error, unparsable output, or a present nonzero envelope status all
yield the empty list instead of an exception. -/
theorem queryPermissions_total (parentIds : List String) (procErr stderr : Option String)
    (po : Option (SfQueryPayload ObjectPermissionsRecord))
    (pf : Option (SfQueryPayload FieldPermissionsRecord)) :
    queryObjectPermissions [] procErr stderr po = []
    ∧ queryFieldPermissions [] procErr stderr pf = []
    ∧ (∀ e : String, queryObjectPermissions parentIds (some e) stderr po = [])
    ∧ (∀ e : String, queryFieldPermissions parentIds (some e) stderr pf = [])
    ∧ queryObjectPermissions parentIds none stderr none = []
    ∧ queryFieldPermissions parentIds none stderr none = []
    ∧ (∀ (s : Int) (pay : SfQueryPayload ObjectPermissionsRecord),
        pay.status = some s → s ≠ 0 →
        queryObjectPermissions parentIds none stderr (some pay) = [])
    ∧ (∀ (s : Int) (pay : SfQueryPayload FieldPermissionsRecord),
        pay.status = some s → s ≠ 0 →
        queryFieldPermissions parentIds none stderr (some pay) = []) := by
  refine ⟨by simp [queryObjectPermissions], by simp [queryFieldPermissions], ?_, ?_, ?_, ?_, ?_, ?_⟩
  · intro e
    by_cases h : parentIds.length = 0 <;>
      simp [queryObjectPermissions, runSfDataQueryWithContext, h]
  · intro e
    by_cases h : parentIds.length = 0 <;>
      simp [queryFieldPermissions, runSfDataQueryWithContext, h]
  · by_cases h : parentIds.length = 0 <;>
      simp [queryObjectPermissions, runSfDataQueryWithContext, h, emptyPayload]
  · by_cases h : parentIds.length = 0 <;>
      simp [queryFieldPermissions, runSfDataQueryWithContext, h, emptyPayload]
  · intro s pay hs hns
    by_cases h : parentIds.length = 0 <;>
      simp [queryObjectPermissions, runSfDataQueryWithContext, h, hs, hns]
  · intro s pay hs hns
    by_cases h : parentIds.length = 0 <;>
      simp [queryFieldPermissions, runSfDataQueryWithContext, h, hs, hns]

/-- Witness for claim C10 at concrete inputs: one parent id with a failed envelope,
and an empty parent id list. -/
theorem queryPermissions_total_witness :
    queryObjectPermissions ["0PS000000000001"] none none
        (some { status := some 1, result := none, message := some "ERROR", name := none }) = []
    ∧ queryFieldPermissions [] none none none = [] := by
  have h := queryPermissions_total ["0PS000000000001"] none none
    (some { status := some 1, result := none, message := some "ERROR", name := none }) none
  exact ⟨h.2.2.2.2.2.2.1 1 { status := some 1, result := none, message := some "ERROR", name := none }
    rfl (by decide), h.2.1⟩

/-! ## Claim C8: CLI wrapper rejection and resolution -/

/-- Counterexample to claim C8 as stated: with no process error, empty-message
envelope of status 1 and stderr text `boom`, the wrapper rejects with the fixed
text `Query failed` rather than falling back to the stderr text. -/
theorem runSfDataQueryWithContext_fallback_counterexample :
    runSfDataQueryWithContext (R := ObjectPermissionsRecord) none (some "boom")
        (some { status := some 1, result := none, message := none, name := none })
      = .error "Query failed"
    ∧ runSfDataQuery (R := ObjectPermissionsRecord) none (some "boom")
        (some { status := some 1, result := none, message := none, name := none })
      = .error "Query failed"
    ∧ "Query failed" ≠ "boom" := by
  refine ⟨rfl, rfl, by decide⟩

/-- Claim C8 amended: both wrappers reject exactly when the process errored or the
envelope's status is present and nonzero, and resolve with the parsed envelope
otherwise; a rejection carries the envelope's message text whenever one is
present; with no envelope message, a process-error rejection falls back to the
envelope's name field (refresh variant only), then to trimmed stderr, then to the
process error message, whereas a nonzero-status rejection uses the fixed text
`Query failed`. -/
theorem sfCliWrappers_reject_resolve (R : Type) (procErr stderr : Option String)
    (parsedOut : Option (SfQueryPayload R)) :
    ((∃ msg, runSfDataQuery procErr stderr parsedOut = .error msg)
      ↔ (procErr ≠ none ∨ ∃ s, (parsedOut.getD emptyPayload).status = some s ∧ s ≠ 0))
    ∧ ((∃ msg, runSfDataQueryWithContext procErr stderr parsedOut = .error msg)
      ↔ (procErr ≠ none ∨ ∃ s, (parsedOut.getD emptyPayload).status = some s ∧ s ≠ 0))
    ∧ (procErr = none →
        ((parsedOut.getD emptyPayload).status = none ∨ (parsedOut.getD emptyPayload).status = some 0) →
        runSfDataQuery procErr stderr parsedOut = .ok (parsedOut.getD emptyPayload)
        ∧ runSfDataQueryWithContext procErr stderr parsedOut = .ok (parsedOut.getD emptyPayload))
    ∧ (∀ m e, (parsedOut.getD emptyPayload).message = some m →
        runSfDataQuery procErr stderr parsedOut = .error e → e = m)
    ∧ (∀ m e, (parsedOut.getD emptyPayload).message = some m →
        runSfDataQueryWithContext procErr stderr parsedOut = .error e → e = m)
    ∧ (∀ em nm, procErr = some em → (parsedOut.getD emptyPayload).message = none →
        (parsedOut.getD emptyPayload).name = some nm →
        runSfDataQuery procErr stderr parsedOut = .error nm)
    ∧ (∀ em, procErr = some em → (parsedOut.getD emptyPayload).message = none →
        (parsedOut.getD emptyPayload).name = none →
        runSfDataQuery procErr stderr parsedOut = .error ((stderr.map jsTrim).getD em))
    ∧ (∀ em, procErr = some em → (parsedOut.getD emptyPayload).message = none →
        runSfDataQueryWithContext procErr stderr parsedOut = .error ((stderr.map jsTrim).getD em))
    ∧ (∀ s, procErr = none → (parsedOut.getD emptyPayload).status = some s → s ≠ 0 →
        (parsedOut.getD emptyPayload).message = none →
        runSfDataQuery procErr stderr parsedOut = .error "Query failed"
        ∧ runSfDataQueryWithContext procErr stderr parsedOut = .error "Query failed") := by
  refine ⟨?_, ?_, ?_, ?_, ?_, ?_, ?_, ?_, ?_⟩
  · cases procErr with
    | some e => simp [runSfDataQuery]
    | none =>
      cases hst : (parsedOut.getD emptyPayload).status with
      | none => simp [runSfDataQuery, hst]
      | some s =>
        by_cases h0 : s = 0
        · subst h0; simp [runSfDataQuery, hst]
        · simp [runSfDataQuery, hst, h0]
  · cases procErr with
    | some e => simp [runSfDataQueryWithContext]
    | none =>
      cases hst : (parsedOut.getD emptyPayload).status with
      | none => simp [runSfDataQueryWithContext, hst]
      | some s =>
        by_cases h0 : s = 0
        · subst h0; simp [runSfDataQueryWithContext, hst]
        · simp [runSfDataQueryWithContext, hst, h0]
  · rintro rfl (hst | hst) <;> exact ⟨by simp [runSfDataQuery, hst], by simp [runSfDataQueryWithContext, hst]⟩
  · intro m e hm he
    cases procErr with
    | some em => simp [runSfDataQuery, hm] at he; exact he.symm
    | none =>
      cases hst : (parsedOut.getD emptyPayload).status with
      | none => simp [runSfDataQuery, hst] at he
      | some s =>
        by_cases h0 : s = 0
        · subst h0; simp [runSfDataQuery, hst] at he
        · simp [runSfDataQuery, hst, h0, hm] at he; exact he.symm
  · intro m e hm he
    cases procErr with
    | some em => simp [runSfDataQueryWithContext, hm] at he; exact he.symm
    | none =>
      cases hst : (parsedOut.getD emptyPayload).status with
      | none => simp [runSfDataQueryWithContext, hst] at he
      | some s =>
        by_cases h0 : s = 0
        · subst h0; simp [runSfDataQueryWithContext, hst] at he
        · simp [runSfDataQueryWithContext, hst, h0, hm] at he; exact he.symm
  · rintro em nm rfl hm hn
    simp [runSfDataQuery, hm, hn]
  · rintro em rfl hm hn
    cases stderr <;> simp [runSfDataQuery, hm, hn]
  · rintro em rfl hm
    cases stderr <;> simp [runSfDataQueryWithContext, hm]
  · rintro s rfl hst hs hm
    exact ⟨by simp [runSfDataQuery, hst, hs, hm], by simp [runSfDataQueryWithContext, hst, hs, hm]⟩

/-- Witness for the amended claim C8 at concrete inputs: a process error with a
message-bearing envelope, and a clean resolution. -/
theorem sfCliWrappers_reject_resolve_witness :
    runSfDataQueryWithContext (R := ObjectPermissionsRecord) none none
        (some { status := some 0, result := none, message := none, name := none })
      = .ok { status := some 0, result := none, message := none, name := none }
    ∧ runSfDataQuery (R := ObjectPermissionsRecord) (some "spawn failed") (some " boom ") none
      = .error "boom" := by
  have h1 := sfCliWrappers_reject_resolve ObjectPermissionsRecord none none
    (some { status := some 0, result := none, message := none, name := none })
  have h2 := sfCliWrappers_reject_resolve ObjectPermissionsRecord (some "spawn failed") (some " boom ") none
  refine ⟨(h1.2.2.1 rfl (Or.inr rfl)).2, ?_⟩
  have := h2.2.2.2.2.2.2.1 "spawn failed" rfl rfl rfl
  simp only [Option.map_some', Option.getD_some] at this
  rw [(by decide : jsTrim " boom " = "boom")] at this
  exact this

/-! ## Upsert lemmas -/

/-- Upserting over a list that contains a matching entry updates the first match in
place: same length, all other positions untouched, the matched position holding the
entry with the six flags overwritten. -/
theorem upsertObjectPermission_present (name : String) (flags : ObjectPermissionFlags) :
    ∀ l : List ObjPermEntry, (∃ e ∈ l, e.object = some name) →
    ∃ i e₀, l.get? i = some e₀ ∧ e₀.object = some name
      ∧ (upsertObjectPermission name flags l).length = l.length
      ∧ (∀ j, j ≠ i → (upsertObjectPermission name flags l).get? j = l.get? j)
      ∧ (upsertObjectPermission name flags l).get? i = some (setObjPermEntryFlags e₀ flags) := by
  intro l
  induction l with
  | nil => rintro ⟨e, he, -⟩; simp at he
  | cons e es ih =>
    intro hex
    by_cases he : e.object = some name
    · refine ⟨0, e, rfl, he, ?_, ?_, ?_⟩
      · simp [upsertObjectPermission, he]
      · intro j hj
        cases j with
        | zero => exact absurd rfl hj
        | succ k => simp [upsertObjectPermission, he]
      · simp [upsertObjectPermission, he]
    · have hex' : ∃ e' ∈ es, e'.object = some name := by
        rcases hex with ⟨e', he', hobj⟩
        rcases List.mem_cons.mp he' with h1 | h2
        · exact absurd (h1 ▸ hobj) he
        · exact ⟨e', h2, hobj⟩
      rcases ih hex' with ⟨i, e₀, hget, hobj, hlen, hsib, hset⟩
      refine ⟨i + 1, e₀, by simpa using hget, hobj, ?_, ?_, ?_⟩
      · simp [upsertObjectPermission, he, hlen]
      · intro j hj
        cases j with
        | zero => simp [upsertObjectPermission, he]
        | succ k =>
          have : k ≠ i := fun hk => hj (by rw [hk])
          simp only [upsertObjectPermission, if_neg he]
          simpa using hsib k this
      · simp only [upsertObjectPermission, if_neg he]
        simpa using hset

/-- Upserting over a list with no matching entry appends exactly the fresh entry. -/
theorem upsertObjectPermission_absent (name : String) (flags : ObjectPermissionFlags) :
    ∀ l : List ObjPermEntry, (∀ e ∈ l, e.object ≠ some name) →
    upsertObjectPermission name flags l
      = l ++ [setObjPermEntryFlags (newObjPermEntry name) flags] := by
  intro l
  induction l with
  | nil => intro _; rfl
  | cons e es ih =>
    intro hall
    have he : e.object ≠ some name := hall e (List.mem_cons_self e es)
    have hes : ∀ e' ∈ es, e'.object ≠ some name := fun e' h' =>
      hall e' (List.mem_cons_of_mem e h')
    simp [upsertObjectPermission, he, ih hes]

/-- The upserted object list always contains an entry for the key whose
`allowRead` child is the written flag value. -/
theorem upsertObjectPermission_mem (name : String) (flags : ObjectPermissionFlags) :
    ∀ l : List ObjPermEntry, ∃ e ∈ upsertObjectPermission name flags l,
      e.object = some name ∧ e.allowRead = some flags.allowRead := by
  intro l
  induction l with
  | nil =>
    exact ⟨setObjPermEntryFlags (newObjPermEntry name) flags, by
      simp [upsertObjectPermission], rfl, rfl⟩
  | cons e es ih =>
    by_cases he : e.object = some name
    · refine ⟨setObjPermEntryFlags e flags, ?_, ?_, rfl⟩
      · simp [upsertObjectPermission, he]
      · simpa [setObjPermEntryFlags] using he
    · rcases ih with ⟨e', hmem, hobj, hread⟩
      exact ⟨e', by simp [upsertObjectPermission, he, hmem], hobj, hread⟩

/-- The upserted field list always contains an entry for the field key. -/
theorem upsertFieldPermission_mem (name : String) (flags : FieldPermissionFlags) :
    ∀ l : List FieldPermEntry, ∃ e ∈ upsertFieldPermission name flags l,
      e.field = some name := by
  intro l
  induction l with
  | nil =>
    exact ⟨setFieldPermEntryFlags (newFieldPermEntry name) flags, by
      simp [upsertFieldPermission], rfl⟩
  | cons e es ih =>
    by_cases he : e.field = some name
    · refine ⟨setFieldPermEntryFlags e flags, ?_, ?_⟩
      · simp [upsertFieldPermission, he]
      · simpa [setFieldPermEntryFlags] using he
    · rcases ih with ⟨e', hmem, hobj⟩
      exact ⟨e', by simp [upsertFieldPermission, he, hmem], hobj⟩

/-- Normalization never clears an allowRead that is already true. -/
theorem normalizeObjectPermissionFlags_allowRead_true (f : ObjectPermissionFlags)
    (h : f.allowRead = true) : (normalizeObjectPermissionFlags f).allowRead = true := by
  obtain ⟨a, b, c, d, e, m⟩ := f
  have hd : d = true := h
  subst hd
  cases a <;> cases b <;> cases c <;> cases e <;> cases m <;> decide

/-! ## Claim C1: object-permission upsert replaces or appends, touching nothing else -/

/-- Claim C1: applying an object-permission update to a parsed document leaves the
field permissions and the rest of the document unchanged; when an entry with the
exact object key is present, one matching entry gets its six flags overwritten and
every other position is untouched with the entry count preserved; when no entry
matches, exactly one new entry for the key is appended after the unchanged
existing entries. -/
theorem applyObjectPermissionsToFile_upsert_frame (ρ : Type) (root : MetadataRoot ρ)
    (objectApiName : String) (flags : ObjectPermissionFlags) :
    (applyObjectPermissionsToFile root objectApiName flags).fieldPermissions = root.fieldPermissions
    ∧ (applyObjectPermissionsToFile root objectApiName flags).rest = root.rest
    ∧ ∃ newList,
        (applyObjectPermissionsToFile root objectApiName flags).objectPermissions = some newList
        ∧ ((∃ e ∈ normalizeToArray root.objectPermissions, e.object = some objectApiName) →
            ∃ i e₀, (normalizeToArray root.objectPermissions).get? i = some e₀
              ∧ e₀.object = some objectApiName
              ∧ newList.length = (normalizeToArray root.objectPermissions).length
              ∧ (∀ j, j ≠ i → newList.get? j = (normalizeToArray root.objectPermissions).get? j)
              ∧ newList.get? i
                  = some (setObjPermEntryFlags e₀ (normalizeObjectPermissionFlags flags)))
        ∧ ((∀ e ∈ normalizeToArray root.objectPermissions, e.object ≠ some objectApiName) →
            newList = normalizeToArray root.objectPermissions
              ++ [setObjPermEntryFlags (newObjPermEntry objectApiName)
                    (normalizeObjectPermissionFlags flags)]) := by
  refine ⟨rfl, rfl,
    upsertObjectPermission objectApiName (normalizeObjectPermissionFlags flags)
      (normalizeToArray root.objectPermissions), rfl, ?_, ?_⟩
  · exact upsertObjectPermission_present objectApiName (normalizeObjectPermissionFlags flags)
      (normalizeToArray root.objectPermissions)
  · exact upsertObjectPermission_absent objectApiName (normalizeObjectPermissionFlags flags)
      (normalizeToArray root.objectPermissions)

/-- Witness for claim C1: a two-entry document. Updating the present key keeps the
entry count at two; updating an absent key appends the fresh entry after the two
existing ones. -/
theorem applyObjectPermissionsToFile_upsert_frame_witness :
    (∃ newList,
      (applyObjectPermissionsToFile
          (⟨some [⟨none, none, none, none, none, none, some "Account"⟩,
                  ⟨none, none, none, none, none, none, some "Contact"⟩], none, (0 : Nat)⟩ :
            MetadataRoot Nat)
          "Contact" ⟨false, false, true, false, false, false⟩).objectPermissions = some newList
      ∧ newList.length = 2)
    ∧ (applyObjectPermissionsToFile
          (⟨some [⟨none, none, none, none, none, none, some "Account"⟩,
                  ⟨none, none, none, none, none, none, some "Contact"⟩], none, (0 : Nat)⟩ :
            MetadataRoot Nat)
          "Lead" ⟨false, false, true, false, false, false⟩).objectPermissions
        = some ([⟨none, none, none, none, none, none, some "Account"⟩,
                 ⟨none, none, none, none, none, none, some "Contact"⟩]
            ++ [setObjPermEntryFlags (newObjPermEntry "Lead")
                  (normalizeObjectPermissionFlags ⟨false, false, true, false, false, false⟩)]) := by
  constructor
  · obtain ⟨-, -, newList, hnew, hpres, -⟩ :=
      applyObjectPermissionsToFile_upsert_frame Nat
        (⟨some [⟨none, none, none, none, none, none, some "Account"⟩,
                ⟨none, none, none, none, none, none, some "Contact"⟩], none, (0 : Nat)⟩ :
          MetadataRoot Nat)
        "Contact" ⟨false, false, true, false, false, false⟩
    obtain ⟨i, e₀, -, -, hlen, -, -⟩ :=
      hpres ⟨⟨none, none, none, none, none, none, some "Contact"⟩, by decide, by decide⟩
    exact ⟨newList, hnew, by simpa [normalizeToArray] using hlen⟩
  · obtain ⟨-, -, newList, hnew, -, habs⟩ :=
      applyObjectPermissionsToFile_upsert_frame Nat
        (⟨some [⟨none, none, none, none, none, none, some "Account"⟩,
                ⟨none, none, none, none, none, none, some "Contact"⟩], none, (0 : Nat)⟩ :
          MetadataRoot Nat)
        "Lead" ⟨false, false, true, false, false, false⟩
    rw [hnew, habs (by decide)]
    rfl

/-! ## Claim C6: field updates always carry object access -/

/-- Claim C6: applying a field permission always leaves the document with an
objectPermissions entry for the field's parent object next to the
fieldPermissions entry; and when the toggle found no existing ObjectPermissions
record for the selected parent and object, the entry written for the object has
allowRead true, because the toggle injects it before applying. -/
theorem applyFieldPermissionsToFile_object_access (ρ : Type) (root : MetadataRoot ρ)
    (objectApiName fieldFullName : String) (records : List ObjectPermissionsRecord)
    (fieldFlags : FieldPermissionFlags) :
    (∃ fe ∈ normalizeToArray (applyFieldPermissionsToFile root objectApiName fieldFullName
        (computeObjectFlagsForFieldToggle records) fieldFlags).fieldPermissions,
      fe.field = some fieldFullName)
    ∧ ∃ e ∈ normalizeToArray (applyFieldPermissionsToFile root objectApiName fieldFullName
        (computeObjectFlagsForFieldToggle records) fieldFlags).objectPermissions,
      e.object = some objectApiName ∧ (records = [] → e.allowRead = some true) := by
  constructor
  · have h := upsertFieldPermission_mem fieldFullName
      (normalizeFieldPermissionFlags fieldFlags)
      (normalizeToArray (ensureObjectPermissionsInRoot root objectApiName
        (normalizeObjectPermissionFlags (computeObjectFlagsForFieldToggle records))).fieldPermissions)
    simpa [applyFieldPermissionsToFile, ensureFieldPermissionsInRoot, normalizeToArray] using h
  · have h := upsertObjectPermission_mem objectApiName
      (normalizeObjectPermissionFlags (computeObjectFlagsForFieldToggle records))
      (normalizeToArray root.objectPermissions)
    rcases h with ⟨e, hmem, hobj, hread⟩
    refine ⟨e, ?_, hobj, ?_⟩
    · simpa [applyFieldPermissionsToFile, ensureFieldPermissionsInRoot,
        ensureObjectPermissionsInRoot, normalizeToArray] using hmem
    · intro hrec
      have hbase : (computeObjectFlagsForFieldToggle records).allowRead = true := by
        subst hrec; rfl
      have hnorm : (normalizeObjectPermissionFlags
          (computeObjectFlagsForFieldToggle records)).allowRead = true :=
        normalizeObjectPermissionFlags_allowRead_true _ hbase
      rw [hread, hnorm]

/-- Witness for claim C6: an empty document, no existing object records. The
written object entry for Account has allowRead true next to the field entry. -/
theorem applyFieldPermissionsToFile_object_access_witness :
    ∃ e ∈ normalizeToArray (applyFieldPermissionsToFile
        (⟨none, none, (0 : Nat)⟩ : MetadataRoot Nat) "Account" "Account.Name"
        (computeObjectFlagsForFieldToggle []) ⟨false, true⟩).objectPermissions,
      e.object = some "Account" ∧ e.allowRead = some true := by
  obtain ⟨-, e, hmem, hobj, himp⟩ :=
    applyFieldPermissionsToFile_object_access Nat (⟨none, none, (0 : Nat)⟩ : MetadataRoot Nat)
      "Account" "Account.Name" [] ⟨false, true⟩
  exact ⟨e, hmem, hobj, himp rfl⟩

/-! ## Claim C7: refresh updates the cache wholesale and atomically -/

/-- Claim C7: on any failure — missing workspace, default-org resolution error, or
any of the three queries failing — the refresh leaves the whole cache unchanged
and returns no result; on success it overwrites all three collections with
exactly the freshly queried values, independently of the previous cache contents,
and returns them. -/
theorem refreshPermissionMetadata_wholesale (hasWorkspace : Bool)
    (orgOutcome : Except String String)
    (profilesOutcome : Except String (SfQueryPayload ProfileRecord))
    (permSetsOutcome : Except String (SfQueryPayload PermSetRecord))
    (profilePermSetOutcome : Except String (SfQueryPayload ProfilePermSetRecord))
    (cache : PermissionMetadataCache) :
    (hasWorkspace = false →
      refreshPermissionMetadata hasWorkspace orgOutcome profilesOutcome permSetsOutcome
        profilePermSetOutcome cache = (cache, none))
    ∧ (∀ e, orgOutcome = .error e →
      refreshPermissionMetadata hasWorkspace orgOutcome profilesOutcome permSetsOutcome
        profilePermSetOutcome cache = (cache, none))
    ∧ (∀ e, profilesOutcome = .error e →
      refreshPermissionMetadata hasWorkspace orgOutcome profilesOutcome permSetsOutcome
        profilePermSetOutcome cache = (cache, none))
    ∧ (∀ e, permSetsOutcome = .error e →
      refreshPermissionMetadata hasWorkspace orgOutcome profilesOutcome permSetsOutcome
        profilePermSetOutcome cache = (cache, none))
    ∧ (∀ e, profilePermSetOutcome = .error e →
      refreshPermissionMetadata hasWorkspace orgOutcome profilesOutcome permSetsOutcome
        profilePermSetOutcome cache = (cache, none))
    ∧ (∀ u p1 p2 p3, hasWorkspace = true → orgOutcome = .ok u → profilesOutcome = .ok p1 →
        permSetsOutcome = .ok p2 → profilePermSetOutcome = .ok p3 →
      refreshPermissionMetadata hasWorkspace orgOutcome profilesOutcome permSetsOutcome
          profilePermSetOutcome cache
        = (⟨(payloadRecords p1).map profileRecordToCached,
            (payloadRecords p2).map permSetRecordToCached,
            buildProfilePermissionSetIds (payloadRecords p3)⟩,
           some ⟨(payloadRecords p1).map profileRecordToCached,
            (payloadRecords p2).map permSetRecordToCached,
            buildProfilePermissionSetIds (payloadRecords p3)⟩)) := by
  refine ⟨?_, ?_, ?_, ?_, ?_, ?_⟩
  · rintro rfl
    rfl
  · rintro e rfl
    cases hasWorkspace <;> rfl
  · rintro e rfl
    cases hasWorkspace <;> cases orgOutcome <;>
      simp [refreshPermissionMetadata]
  · rintro e rfl
    cases hasWorkspace <;> cases orgOutcome <;> cases profilesOutcome <;>
      simp [refreshPermissionMetadata]
  · rintro e rfl
    cases hasWorkspace <;> cases orgOutcome <;> cases profilesOutcome <;>
      cases permSetsOutcome <;> simp [refreshPermissionMetadata]
  · rintro u p1 p2 p3 rfl rfl rfl rfl rfl
    rfl

/-- Witness for claim C7: a failed profile query leaves a one-entry cache intact;
successful queries overwrite it with the freshly mapped rows. -/
theorem refreshPermissionMetadata_wholesale_witness :
    refreshPermissionMetadata true (.ok "user@example.com") (.error "expired")
        (.ok { status := some 0, result := none, message := none, name := none })
        (.ok { status := some 0, result := none, message := none, name := none })
        ⟨[⟨"p0", "Old"⟩], [], []⟩
      = (⟨[⟨"p0", "Old"⟩], [], []⟩, none)
    ∧ refreshPermissionMetadata true (.ok "user@example.com")
        (.ok { status := some 0, result := some ⟨some [⟨"p1", "Admin"⟩]⟩, message := none, name := none })
        (.ok { status := some 0, result := some ⟨some []⟩, message := none, name := none })
        (.ok { status := some 0, result := some ⟨some [⟨"ps1", "p1", "X"⟩]⟩, message := none, name := none })
        ⟨[⟨"p0", "Old"⟩], [], []⟩
      = (⟨[⟨"p1", "Admin"⟩], [], [("p1", "ps1")]⟩, some ⟨[⟨"p1", "Admin"⟩], [], [("p1", "ps1")]⟩) := by
  constructor
  · exact (refreshPermissionMetadata_wholesale true (.ok "user@example.com") (.error "expired")
      (.ok { status := some 0, result := none, message := none, name := none })
      (.ok { status := some 0, result := none, message := none, name := none })
      ⟨[⟨"p0", "Old"⟩], [], []⟩).2.2.1 "expired" rfl
  · have h := (refreshPermissionMetadata_wholesale true (.ok "user@example.com")
      (.ok { status := some 0, result := some ⟨some [⟨"p1", "Admin"⟩]⟩, message := none, name := none })
      (.ok { status := some 0, result := some ⟨some []⟩, message := none, name := none })
      (.ok { status := some 0, result := some ⟨some [⟨"ps1", "p1", "X"⟩]⟩, message := none, name := none })
      ⟨[⟨"p0", "Old"⟩], [], []⟩).2.2.2.2.2 "user@example.com"
      { status := some 0, result := some ⟨some [⟨"p1", "Admin"⟩]⟩, message := none, name := none }
      { status := some 0, result := some ⟨some []⟩, message := none, name := none }
      { status := some 0, result := some ⟨some [⟨"ps1", "p1", "X"⟩]⟩, message := none, name := none }
      rfl rfl rfl rfl rfl
    rw [h]
    rfl

/-! ## Path lemmas for clean component lists -/

/-- Splitting never yields an empty list of segments. -/
theorem splitOnSep_ne_nil : ∀ l : List Char, splitOnSep l ≠ [] := by
  intro l
  induction l with
  | nil => simp [splitOnSep]
  | cons c rest ih =>
    rw [splitOnSep]
    by_cases hc : c = '/'
    · simp [hc]
    · rw [if_neg hc]
      cases h : splitOnSep rest with
      | nil => simp
      | cons g gs => simp

/-- A separator-free list splits into itself as the only segment. -/
theorem splitOnSep_no_slash : ∀ c : List Char, '/' ∉ c → splitOnSep c = [c] := by
  intro c
  induction c with
  | nil => intro _; rfl
  | cons a as ih =>
    intro h
    have ha : a ≠ '/' := fun hq => h (hq ▸ List.mem_cons_self a as)
    have has : '/' ∉ as := fun hq => h (List.mem_cons_of_mem a hq)
    rw [splitOnSep, if_neg ha, ih has]

/-- Splitting distributes over a separator after a separator-free prefix. -/
theorem splitOnSep_append_slash : ∀ c : List Char, '/' ∉ c → ∀ r : List Char,
    splitOnSep (c ++ '/' :: r) = c :: splitOnSep r := by
  intro c
  induction c with
  | nil =>
    intro _ r
    rw [List.nil_append, splitOnSep, if_pos rfl]
  | cons a as ih =>
    intro h r
    have ha : a ≠ '/' := fun hq => h (hq ▸ List.mem_cons_self a as)
    have has : '/' ∉ as := fun hq => h (List.mem_cons_of_mem a hq)
    rw [List.cons_append, splitOnSep, if_neg ha, ih has r]

/-- Splitting a clean join recovers the component list. -/
theorem splitOnSep_joinSep : ∀ comps : List (List Char), comps ≠ [] →
    (∀ c ∈ comps, '/' ∉ c) → splitOnSep (joinSep comps) = comps := by
  intro comps
  induction comps with
  | nil => intro h; exact absurd rfl h
  | cons c cs ih =>
    intro _ hall
    cases cs with
    | nil =>
      have hj : joinSep [c] = c := rfl
      rw [hj]
      exact splitOnSep_no_slash c (hall c (List.mem_cons_self c []))
    | cons c2 cs2 =>
      have hj : joinSep (c :: c2 :: cs2) = c ++ '/' :: joinSep (c2 :: cs2) := rfl
      rw [hj]
      rw [splitOnSep_append_slash c (hall c (List.mem_cons_self c _)) (joinSep (c2 :: cs2))]
      rw [ih (List.cons_ne_nil c2 cs2) (fun d hd => hall d (List.mem_cons_of_mem c hd))]

/-- Clean segments pass through dot resolution unchanged. -/
theorem resolveDots_clean (allow : Bool) : ∀ (comps : List (List Char)) (acc : List (List Char)),
    (∀ c ∈ comps, cleanComp c) → resolveDots allow acc comps = acc.reverse ++ comps := by
  intro comps
  induction comps with
  | nil => intro acc _; simp [resolveDots]
  | cons c cs ih =>
    intro acc hall
    obtain ⟨hne, hdot, hdots, -⟩ := hall c (List.mem_cons_self c cs)
    have hunfold : resolveDots allow acc (c :: cs) =
        if c = [] || c = ['.'] then resolveDots allow acc cs
        else if c = ['.', '.'] then
          (match acc with
          | top :: rest =>
            if top = ['.', '.'] then
              if allow then resolveDots allow (c :: acc) cs else resolveDots allow acc cs
            else resolveDots allow rest cs
          | [] => if allow then resolveDots allow [c] cs else resolveDots allow [] cs)
        else resolveDots allow (c :: acc) cs := rfl
    rw [hunfold]
    rw [if_neg (by simp [hne, hdot])]
    rw [if_neg (by simp [hdots])]
    rw [ih (c :: acc) (fun d hd => hall d (List.mem_cons_of_mem c hd))]
    simp

/-- Join of a component list with a distinguished last component. -/
theorem joinSep_append_singleton : ∀ (parts : List (List Char)) (c : List Char),
    joinSep (parts ++ [c]) = if parts = [] then c else joinSep parts ++ '/' :: c := by
  intro parts
  induction parts with
  | nil => intro c; simp [joinSep]
  | cons a rest ih =>
    intro c
    have hstep : joinSep ((a :: rest) ++ [c]) = a ++ '/' :: joinSep (rest ++ [c]) := by
      cases rest <;> rfl
    rw [hstep, ih c]
    cases rest with
    | nil => simp [joinSep]
    | cons b rest2 =>
      rw [if_neg (by simp), if_neg (by simp)]
      have hj2 : joinSep (a :: b :: rest2) = a ++ '/' :: joinSep (b :: rest2) := rfl
      rw [hj2]
      simp

/-- The head of a clean join is the head of its first component. -/
theorem joinSep_head (c : List Char) (cs : List (List Char)) (h : c ≠ []) :
    (joinSep (c :: cs)).head? = c.head? := by
  cases cs with
  | nil => rfl
  | cons c2 cs2 =>
    have hj : joinSep (c :: c2 :: cs2) = c ++ '/' :: joinSep (c2 :: cs2) := rfl
    rw [hj]
    cases c with
    | nil => exact absurd rfl h
    | cons a as => rfl

/-- The last element of a join ending in a nonempty component is that component's last. -/
theorem joinSep_getLast (parts : List (List Char)) (c : List Char) (h : c ≠ []) :
    (joinSep (parts ++ [c])).getLast? = c.getLast? := by
  induction parts with
  | nil => rfl
  | cons a rest ih =>
    have hj : joinSep ((a :: rest) ++ [c]) = a ++ '/' :: joinSep (rest ++ [c]) := by
      cases rest <;> rfl
    rw [hj]
    rw [List.getLast?_append_of_ne_nil _ (List.cons_ne_nil _ _)]
    have hJne : joinSep (rest ++ [c]) ≠ [] := by
      intro hnil
      rw [hnil] at ih
      cases hc : c.getLast? with
      | none => rw [hc] at ih; exact h (by simpa using hc)
      | some z => rw [hc] at ih; exact absurd ih (by simp)
    show (['/'] ++ joinSep (rest ++ [c])).getLast? = c.getLast?
    rw [List.getLast?_append_of_ne_nil _ hJne]
    exact ih

/-- A list's optional last element is a member. -/
theorem mem_of_getLast?_eq {α : Type} {l : List α} {a : α} (h : l.getLast? = some a) :
    a ∈ l := by
  obtain ⟨hne, heq⟩ := List.mem_getLast?_eq_getLast ((Option.mem_def).mpr h)
  exact heq ▸ List.getLast_mem hne

/-- A clean join is nonempty. -/
theorem joinSep_ne_nil (comps : List (List Char)) (hne : comps ≠ [])
    (hall : ∀ c ∈ comps, c ≠ []) : joinSep comps ≠ [] := by
  cases comps with
  | nil => exact absurd rfl hne
  | cons c cs =>
    cases cs with
    | nil => exact hall c (List.mem_cons_self c [])
    | cons c2 cs2 =>
      have hj : joinSep (c :: c2 :: cs2) = c ++ '/' :: joinSep (c2 :: cs2) := rfl
      rw [hj]
      simp

/-- A clean join does not start with the separator. -/
theorem joinSep_head_ne_slash (comps : List (List Char)) (hne : comps ≠ [])
    (hall : ∀ c ∈ comps, cleanComp c) : (joinSep comps).head? ≠ some '/' := by
  cases comps with
  | nil => exact absurd rfl hne
  | cons c cs =>
    obtain ⟨hcne, -, -, hslash⟩ := hall c (List.mem_cons_self c cs)
    rw [joinSep_head c cs hcne]
    cases c with
    | nil => exact absurd rfl hcne
    | cons a as =>
      intro hcontra
      have : a = '/' := by simpa using hcontra
      exact hslash (this ▸ List.mem_cons_self a as)

/-- A join ending in a clean component does not end with the separator. -/
theorem joinSep_getLast_ne_slash (parts : List (List Char)) (c : List Char)
    (hc : cleanComp c) : (joinSep (parts ++ [c])).getLast? ≠ some '/' := by
  rw [joinSep_getLast parts c hc.1]
  intro hcontra
  exact hc.2.2.2 (mem_of_getLast?_eq hcontra)

/-- Normalizing a clean join is the identity. -/
theorem pathNormalize_joinSep (parts : List (List Char)) (c : List Char)
    (hall : ∀ d ∈ parts ++ [c], cleanComp d) :
    pathNormalize (joinSep (parts ++ [c])) = joinSep (parts ++ [c]) := by
  have hne : parts ++ [c] ≠ [] := by simp
  have hpne : joinSep (parts ++ [c]) ≠ [] :=
    joinSep_ne_nil (parts ++ [c]) hne (fun d hd => (hall d hd).1)
  have hhead : (joinSep (parts ++ [c])).head? ≠ some '/' :=
    joinSep_head_ne_slash (parts ++ [c]) hne hall
  have htrail : (joinSep (parts ++ [c])).getLast? ≠ some '/' :=
    joinSep_getLast_ne_slash parts c (hall c (by simp))
  have hsplit : splitOnSep (joinSep (parts ++ [c])) = parts ++ [c] :=
    splitOnSep_joinSep (parts ++ [c]) hne (fun d hd => (hall d hd).2.2.2)
  rw [pathNormalize]
  rw [if_neg hpne]
  simp only [hsplit]
  rw [resolveDots_clean _ (parts ++ [c]) [] hall]
  simp only [List.reverse_nil, List.nil_append]
  rw [if_neg hpne]
  rw [if_neg htrail, if_neg (by simpa using hhead)]

/-- Basename of a clean join is its last component. -/
theorem pathBasenameCore_joinSep (parts : List (List Char)) (c : List Char)
    (hall : ∀ d ∈ parts ++ [c], cleanComp d) :
    pathBasenameCore (joinSep (parts ++ [c])) = c := by
  have htrail : (joinSep (parts ++ [c])).getLast? ≠ some '/' :=
    joinSep_getLast_ne_slash parts c (hall c (by simp))
  have hq : ((joinSep (parts ++ [c])).reverse.dropWhile (· = '/')).reverse
      = joinSep (parts ++ [c]) := by
    have hhead : (joinSep (parts ++ [c])).reverse.head? ≠ some '/' := by
      rw [List.head?_reverse]; exact htrail
    cases hr : (joinSep (parts ++ [c])).reverse with
    | nil =>
      have := congrArg List.reverse hr
      simpa using this.symm
    | cons z zs =>
      have hz : ¬(z = '/') := by rw [hr] at hhead; simpa using hhead
      rw [List.dropWhile_cons, if_neg (by simpa using hz), ← hr, List.reverse_reverse]
  rw [pathBasenameCore]
  simp only [hq]
  rw [splitOnSep_joinSep (parts ++ [c]) (by simp) (fun d hd => (hall d hd).2.2.2)]
  rw [List.getLast?_append_of_ne_nil _ (List.cons_ne_nil c [])]
  rfl

/-- Basename with extension strips a suffix extension from the last component. -/
theorem pathBasenameExt_joinSep (parts : List (List Char)) (X ext : List Char)
    (hall : ∀ d ∈ parts ++ [X ++ ext], cleanComp d) (hX : X ≠ []) :
    pathBasenameExt (joinSep (parts ++ [X ++ ext])) ext = X := by
  rw [pathBasenameExt]
  rw [pathBasenameCore_joinSep parts (X ++ ext) hall]
  have hne : X ++ ext ≠ ext := by
    intro h
    have := congrArg List.length h
    simp at this
    exact hX this
  have hsuf : ext.isSuffixOf (X ++ ext) = true := by
    rw [List.isSuffixOf_iff_suffix]
    exact List.suffix_append X ext
  rw [if_pos ⟨hne, hsuf⟩]
  have hlen : (X ++ ext).length - ext.length = X.length := by simp
  rw [hlen, List.take_left]

/-- An extension dividing the last component is a suffix of the whole join. -/
theorem isSuffixOf_joinSep (parts : List (List Char)) (c ext : List Char)
    (hsub : ext <:+ c) : ext.isSuffixOf (joinSep (parts ++ [c])) = true := by
  rw [List.isSuffixOf_iff_suffix, joinSep_append_singleton]
  by_cases hp : parts = []
  · rw [if_pos hp]; exact hsub
  · rw [if_neg hp]
    exact hsub.trans ((List.suffix_cons '/' c).trans (List.suffix_append _ _))

/-- A path ending in the field extension does not end in the object extension. -/
theorem object_ext_not_suffix_of_field_ext (p : List Char)
    (hfield : (".field-meta.xml".toList).isSuffixOf p = true) :
    (".object-meta.xml".toList).isSuffixOf p = false := by
  by_contra h
  have hobj : (".object-meta.xml".toList) <:+ p := by
    rw [← List.isSuffixOf_iff_suffix]
    simpa using h
  have hfl : (".field-meta.xml".toList) <:+ p := List.isSuffixOf_iff_suffix.mp hfield
  rcases List.suffix_or_suffix_of_suffix hfl hobj with hc | hc
  · exact (by decide : ¬ (".field-meta.xml".toList <:+ ".object-meta.xml".toList)) hc
  · exact (by decide : ¬ (".object-meta.xml".toList <:+ ".field-meta.xml".toList)) hc

/-- The first match in an appended list lands right after a match-free prefix. -/
theorem findIndexOpt_append_first {α : Type} (p : α → Bool) (l₁ : List α) (x : α) (l₂ : List α)
    (h₁ : ∀ a ∈ l₁, p a = false) (hx : p x = true) :
    findIndexOpt p (l₁ ++ x :: l₂) = some l₁.length := by
  induction l₁ with
  | nil => simp [findIndexOpt, hx]
  | cons a rest ih =>
    have ha : p a = false := h₁ a (List.mem_cons_self a rest)
    rw [List.cons_append, findIndexOpt, if_neg (by simp [ha])]
    rw [ih (fun b hb => h₁ b (List.mem_cons_of_mem a hb))]
    rfl

/-- A found index points at an element satisfying the predicate. -/
theorem findIndexOpt_spec {α : Type} (p : α → Bool) : ∀ (l : List α) (i : Nat),
    findIndexOpt p l = some i → ∃ a, l.get? i = some a ∧ p a = true := by
  intro l
  induction l with
  | nil => intro i h; simp [findIndexOpt] at h
  | cons a rest ih =>
    intro i h
    rw [findIndexOpt] at h
    by_cases ha : p a
    · rw [if_pos ha] at h
      obtain rfl : i = 0 := by simpa using h.symm
      exact ⟨a, rfl, ha⟩
    · rw [if_neg ha] at h
      cases hfi : findIndexOpt p rest with
      | none => rw [hfi] at h; simp at h
      | some j =>
        rw [hfi] at h
        obtain rfl : i = j + 1 := by simpa using h.symm
        obtain ⟨b, hb, hpb⟩ := ih j hfi
        exact ⟨b, by simpa using hb, hpb⟩

/-- A satisfied predicate somewhere in the list makes the search succeed. -/
theorem findIndexOpt_isSome_of_mem {α : Type} (p : α → Bool) : ∀ l : List α,
    (∃ a ∈ l, p a = true) → ∃ i, findIndexOpt p l = some i := by
  intro l
  induction l with
  | nil => rintro ⟨a, ha, -⟩; simp at ha
  | cons a rest ih =>
    rintro ⟨b, hb, hpb⟩
    by_cases ha : p a
    · exact ⟨0, by rw [findIndexOpt, if_pos ha]⟩
    · rcases List.mem_cons.mp hb with rfl | hbr
      · exact absurd hpb (by simpa using ha)
      · obtain ⟨j, hj⟩ := ih ⟨b, hbr, hpb⟩
        exact ⟨j + 1, by rw [findIndexOpt, if_neg ha, hj]; rfl⟩

/-- Character list of a constructed string. -/
theorem string_mk_toList (l : List Char) : (String.mk l).toList = l := rfl

/-- A clean name with a slash-free extension of length at least three appended is a
clean component. -/
theorem cleanComp_append_ext (X ext : List Char) (hX : cleanComp X) (hext : '/' ∉ ext)
    (hlen : 2 < ext.length) : cleanComp (X ++ ext) := by
  refine ⟨?_, ?_, ?_, ?_⟩
  · intro h
    exact hX.1 (List.append_eq_nil.mp h).1
  · intro h
    have := congrArg List.length h
    simp at this
    omega
  · intro h
    have := congrArg List.length h
    simp at this
    omega
  · intro h
    rcases List.mem_append.mp h with h1 | h2
    · exact hX.2.2.2 h1
    · exact hext h2

/-! ## Claim C5: path parsing shapes -/

/-- Counterexample to claim C5 as stated: the path `Bar.object-meta.xml` is of
neither claimed shape (it has no `objects` segment at all), yet the parser maps it
to an object result with the basename, not to null. -/
theorem parseObjectFieldFromPath_shape_counterexample :
    ("objects".toList ∉ splitOnSep ("Bar.object-meta.xml".toList))
    ∧ parseObjectFieldFromPath "Bar.object-meta.xml" ≠ none
    ∧ parseObjectFieldFromPath "Bar.object-meta.xml"
        = some (FocusedMetadata.object "Bar") := by
  refine ⟨by decide, by decide, by decide⟩

/-- Claim C5 amended: a clean path of the form `.../objects/X/X.object-meta.xml`
parses to the object result and a clean path of the form
`.../objects/X/fields/Y.field-meta.xml` (with no earlier `objects` segment)
parses to the field result, as claimed; a path ending in neither special suffix
parses to null; but — contrary to the claim's final clause — any path whose
normalized form ends in `.object-meta.xml` parses to an object result carrying
the extension-stripped basename, whether or not it has the claimed shape. -/
theorem parseObjectFieldFromPath_amended :
    (∀ (parts : List (List Char)) (X : List Char),
        (∀ d ∈ parts, cleanComp d) → cleanComp X →
        parseObjectFieldFromPath (String.mk (joinSep (parts ++
            ["objects".toList, X, X ++ ".object-meta.xml".toList])))
          = some (FocusedMetadata.object (String.mk X)))
    ∧ (∀ (parts : List (List Char)) (X Y : List Char),
        (∀ d ∈ parts, cleanComp d) → cleanComp X → cleanComp Y →
        "objects".toList ∉ parts →
        parseObjectFieldFromPath (String.mk (joinSep (parts ++
            ["objects".toList, X, "fields".toList, Y ++ ".field-meta.xml".toList])))
          = some (FocusedMetadata.field (String.mk X) (String.mk Y)
              (String.mk (X ++ '.' :: Y))))
    ∧ (∀ p : String, (".object-meta.xml".toList).isSuffixOf (pathNormalize p.toList) = false →
        (".field-meta.xml".toList).isSuffixOf (pathNormalize p.toList) = false →
        parseObjectFieldFromPath p = none)
    ∧ (∀ p : String, (".object-meta.xml".toList).isSuffixOf (pathNormalize p.toList) = true →
        parseObjectFieldFromPath p = some (FocusedMetadata.object
          (String.mk (pathBasenameExt (pathNormalize p.toList) ".object-meta.xml".toList)))) := by
  refine ⟨?_, ?_, ?_, ?_⟩
  · intro parts X hparts hX
    have hassoc : parts ++ ["objects".toList, X, X ++ ".object-meta.xml".toList]
        = (parts ++ ["objects".toList, X]) ++ [X ++ ".object-meta.xml".toList] := by simp
    have hall : ∀ d ∈ (parts ++ ["objects".toList, X]) ++ [X ++ ".object-meta.xml".toList],
        cleanComp d := by
      intro d hd
      rcases List.mem_append.mp hd with hd1 | hd2
      · rcases List.mem_append.mp hd1 with hp | hm
        · exact hparts d hp
        · rcases List.mem_cons.mp hm with rfl | hm2
          · decide
          · obtain rfl : d = X := by simpa using hm2
            exact hX
      · obtain rfl : d = X ++ ".object-meta.xml".toList := by simpa using hd2
        exact cleanComp_append_ext X _ hX (by decide) (by decide)
    have hnorm := pathNormalize_joinSep (parts ++ ["objects".toList, X])
      (X ++ ".object-meta.xml".toList) hall
    have hsuf : (".object-meta.xml".toList).isSuffixOf
        (joinSep ((parts ++ ["objects".toList, X]) ++ [X ++ ".object-meta.xml".toList])) = true :=
      isSuffixOf_joinSep _ _ _ (List.suffix_append X _)
    have hbase := pathBasenameExt_joinSep (parts ++ ["objects".toList, X]) X
      ".object-meta.xml".toList hall hX.1
    rw [hassoc]
    simp only [parseObjectFieldFromPath, string_mk_toList]
    rw [hnorm]
    rw [if_pos hsuf, hbase]
  · intro parts X Y hparts hX hY hnotin
    have hassoc : parts ++ ["objects".toList, X, "fields".toList, Y ++ ".field-meta.xml".toList]
        = (parts ++ ["objects".toList, X, "fields".toList])
            ++ [Y ++ ".field-meta.xml".toList] := by simp
    have hall : ∀ d ∈ (parts ++ ["objects".toList, X, "fields".toList])
        ++ [Y ++ ".field-meta.xml".toList], cleanComp d := by
      intro d hd
      rcases List.mem_append.mp hd with hd1 | hd2
      · rcases List.mem_append.mp hd1 with hp | hm
        · exact hparts d hp
        · rcases List.mem_cons.mp hm with rfl | hm2
          · decide
          · rcases List.mem_cons.mp hm2 with rfl | hm3
            · exact hX
            · obtain rfl : d = "fields".toList := by simpa using hm3
              decide
      · obtain rfl : d = Y ++ ".field-meta.xml".toList := by simpa using hd2
        exact cleanComp_append_ext Y _ hY (by decide) (by decide)
    have hnorm := pathNormalize_joinSep (parts ++ ["objects".toList, X, "fields".toList])
      (Y ++ ".field-meta.xml".toList) hall
    have hfsuf : (".field-meta.xml".toList).isSuffixOf
        (joinSep ((parts ++ ["objects".toList, X, "fields".toList])
          ++ [Y ++ ".field-meta.xml".toList])) = true :=
      isSuffixOf_joinSep _ _ _ (List.suffix_append Y _)
    have hosuf := object_ext_not_suffix_of_field_ext _ hfsuf
    have hsplit : splitOnSep (joinSep ((parts ++ ["objects".toList, X, "fields".toList])
        ++ [Y ++ ".field-meta.xml".toList]))
        = parts ++ ["objects".toList, X, "fields".toList, Y ++ ".field-meta.xml".toList] := by
      rw [splitOnSep_joinSep _ (by simp) (fun d hd => (hall d hd).2.2.2)]
      simp
    have hoidx : findIndexOpt (fun x => decide (x = "objects".toList))
        (parts ++ ["objects".toList, X, "fields".toList, Y ++ ".field-meta.xml".toList])
        = some parts.length := by
      apply findIndexOpt_append_first
      · intro a ha
        have hane : a ≠ "objects".toList := fun hc => hnotin (hc ▸ ha)
        simpa using hane
      · simp
    obtain ⟨fi, hfi⟩ := findIndexOpt_isSome_of_mem (fun x => decide (x = "fields".toList))
      (parts ++ ["objects".toList, X, "fields".toList, Y ++ ".field-meta.xml".toList])
      ⟨"fields".toList, by simp, by simp⟩
    obtain ⟨afi, hget_fi, hp_afi⟩ := findIndexOpt_spec _ _ fi hfi
    have hafi : afi = "fields".toList := by simpa using hp_afi
    have hfi_lt : fi < (parts ++ ["objects".toList, X, "fields".toList,
        Y ++ ".field-meta.xml".toList]).length := (List.get?_eq_some.mp hget_fi).1
    have hlen : (parts ++ ["objects".toList, X, "fields".toList,
        Y ++ ".field-meta.xml".toList]).length = parts.length + 4 := by simp
    have hfi_ne : fi ≠ parts.length + 3 := by
      intro hq
      subst hq
      have hgetC : (parts ++ ["objects".toList, X, "fields".toList,
          Y ++ ".field-meta.xml".toList]).get? (parts.length + 3)
          = some (Y ++ ".field-meta.xml".toList) := by
        rw [List.get?_append_right (by omega)]
        simp
      rw [hgetC] at hget_fi
      have : Y ++ ".field-meta.xml".toList = "fields".toList := by
        rw [← hafi]
        exact (Option.some.injEq _ _ ▸ hget_fi :)
      have hlc := congrArg List.length this
      have hYpos : 0 < Y.length := List.length_pos.mpr hY.1
      simp at hlc
    have hcond : parts.length + 1 < (parts ++ ["objects".toList, X, "fields".toList,
          Y ++ ".field-meta.xml".toList]).length
        ∧ fi + 1 < (parts ++ ["objects".toList, X, "fields".toList,
          Y ++ ".field-meta.xml".toList]).length := by
      rw [hlen] at hfi_lt ⊢
      constructor
      · omega
      · omega
    have hgetX : (parts ++ ["objects".toList, X, "fields".toList,
        Y ++ ".field-meta.xml".toList]).get? (parts.length + 1) = some X := by
      rw [List.get?_append_right (by omega)]
      simp
    have hbase := pathBasenameExt_joinSep (parts ++ ["objects".toList, X, "fields".toList]) Y
      ".field-meta.xml".toList hall hY.1
    rw [hassoc]
    simp only [parseObjectFieldFromPath, string_mk_toList]
    rw [hnorm]
    rw [if_neg (fun hcon => by rw [hosuf] at hcon; simp at hcon)]
    rw [if_pos hfsuf]
    simp only [hsplit, hoidx, hfi]
    rw [if_pos hcond]
    rw [hgetX, hbase]
    rfl
  · intro p h1 h2
    simp only [parseObjectFieldFromPath]
    rw [if_neg (fun hcon => by rw [h1] at hcon; simp at hcon)]
    rw [if_neg (fun hcon => by rw [h2] at hcon; simp at hcon)]
  · intro p h
    simp only [parseObjectFieldFromPath]
    rw [if_pos h]

/-- Witness for the amended claim C5 at concrete paths: a standard object path, a
standard field path, and a path with neither suffix. -/
theorem parseObjectFieldFromPath_amended_witness :
    parseObjectFieldFromPath "force-app/objects/Account/Account.object-meta.xml"
      = some (FocusedMetadata.object "Account")
    ∧ parseObjectFieldFromPath "force-app/objects/Account/fields/Name.field-meta.xml"
      = some (FocusedMetadata.field "Account" "Name" "Account.Name")
    ∧ parseObjectFieldFromPath "a/b/c.txt" = none := by
  obtain ⟨ha, hb, hc, -⟩ := parseObjectFieldFromPath_amended
  refine ⟨?_, ?_, ?_⟩
  · have h := ha ["force-app".toList] "Account".toList (by decide) (by decide)
    have heq : String.mk (joinSep (["force-app".toList]
        ++ ["objects".toList, "Account".toList,
            "Account".toList ++ ".object-meta.xml".toList]))
        = "force-app/objects/Account/Account.object-meta.xml" := by decide
    rw [heq] at h
    rw [h]
    decide
  · have h := hb ["force-app".toList] "Account".toList "Name".toList
      (by decide) (by decide) (by decide) (by decide)
    have heq : String.mk (joinSep (["force-app".toList]
        ++ ["objects".toList, "Account".toList, "fields".toList,
            "Name".toList ++ ".field-meta.xml".toList]))
        = "force-app/objects/Account/fields/Name.field-meta.xml" := by decide
    rw [heq] at h
    rw [h]
    decide
  · exact hc "a/b/c.txt" (by decide) (by decide)
